import Mathlib

/-!
Verification of the FinHub Learned Portfolio Allocation Engine
(src/api/portfolio_model.py and src/api/app.py) against its
natural-language specification.

The numeric code is shallowly embedded over the real numbers: tensors
become functions out of `Fin n`, NaN-able numpy entries become
`Option` values, and the raised Python exceptions of fallible paths
become `Option`/`Except` results.  The neural encoder stack
(convolutions, LSTM, attention) only feeds the final
`weight_generator` linear layer; every claim about the forward pass
concerns the masking step applied to those raw logits, so the raw
logit vector is a parameter of the embedding.
-/

namespace FinHub

/-! ### Masked softmax (PortfolioOptimizationModel.forward, lines 752-759)

The code computes
  `masked_weights = raw_weights * mask - 1e10 * (1 - mask)`
  `normalized_weights = torch.softmax(masked_weights, dim=1)`
for one sample of the batch; we embed one row. -/

/-- Logit masking of `forward`: `raw_weights * mask - 1e10 * (1 - mask)`. -/
def maskedLogits {n : ℕ} (raw mask : Fin n → ℝ) : Fin n → ℝ :=
  fun i => raw i * mask i - 1e10 * (1 - mask i)

/-- Row softmax (`torch.softmax(masked_weights, dim=1)`) applied to the
masked logits: the weight vector returned by `forward`. -/
noncomputable def forwardWeights {n : ℕ} (raw mask : Fin n → ℝ) : Fin n → ℝ :=
  fun i => Real.exp (maskedLogits raw mask i) /
    ∑ j, Real.exp (maskedLogits raw mask j)

lemma expSum_pos {n : ℕ} (l : Fin n → ℝ) (hn : 0 < n) :
    0 < ∑ j, Real.exp (l j) := by
  have : Nonempty (Fin n) := ⟨⟨0, hn⟩⟩
  exact Finset.sum_pos (fun j _ => Real.exp_pos _) Finset.univ_nonempty

lemma forwardWeights_sum {n : ℕ} (raw mask : Fin n → ℝ) (hn : 0 < n) :
    ∑ i, forwardWeights raw mask i = 1 := by
  unfold forwardWeights
  rw [← Finset.sum_div]
  exact div_self (ne_of_gt (expSum_pos _ hn))

lemma forwardWeights_nonneg {n : ℕ} (raw mask : Fin n → ℝ) (i : Fin n) :
    0 ≤ forwardWeights raw mask i := by
  unfold forwardWeights
  positivity

lemma forwardWeights_pos {n : ℕ} (raw mask : Fin n → ℝ) (hn : 0 < n) (i : Fin n) :
    0 < forwardWeights raw mask i := by
  unfold forwardWeights
  exact div_pos (Real.exp_pos _) (expSum_pos _ hn)

lemma exp_ten_gt : (10000 : ℝ) < Real.exp 10 := by
  have h1 : (2.7 : ℝ) < Real.exp 1 := by
    have := Real.exp_one_gt_d9
    linarith
  have h2 : Real.exp 10 = Real.exp 1 ^ 10 := by
    rw [← Real.exp_nat_mul]
    norm_num
  have h3 : (2.7 : ℝ) ^ 10 ≤ Real.exp 1 ^ 10 := by
    apply pow_le_pow_left₀ (by norm_num) (le_of_lt h1)
  have h4 : (10000 : ℝ) < (2.7 : ℝ) ^ 10 := by norm_num
  calc (10000 : ℝ) < (2.7 : ℝ) ^ 10 := h4
    _ ≤ Real.exp 1 ^ 10 := h3
    _ = Real.exp 10 := h2.symm

lemma exp_neg_ten_lt : Real.exp (-10) < 1e-4 := by
  have h := exp_ten_gt
  rw [Real.exp_neg]
  have h4 : (1e-4 : ℝ) = 10000⁻¹ := by norm_num
  rw [h4]
  gcongr

/-- Key bound: if position `i` is masked off while some active position `j`
carries a raw logit at least `-1e10 + 10`, the softmax output at `i` is
below every reasonable tolerance. -/
lemma forwardWeights_masked_small {n : ℕ} (raw mask : Fin n → ℝ) (i j : Fin n)
    (hi : mask i = 0) (hj : mask j = 1) (hraw : -1e10 + 10 ≤ raw j) :
    forwardWeights raw mask i < 1e-4 := by
  have hli : maskedLogits raw mask i = -1e10 := by
    simp [maskedLogits, hi]
  have hlj : maskedLogits raw mask j = raw j := by
    simp [maskedLogits, hj]
  have hden : Real.exp (raw j) ≤ ∑ k, Real.exp (maskedLogits raw mask k) := by
    rw [← hlj]
    exact Finset.single_le_sum (f := fun k => Real.exp (maskedLogits raw mask k))
      (fun k _ => le_of_lt (Real.exp_pos _)) (Finset.mem_univ j)
  have hratio : forwardWeights raw mask i ≤ Real.exp (-1e10) / Real.exp (raw j) := by
    unfold forwardWeights
    rw [hli]
    exact div_le_div_of_nonneg_left (le_of_lt (Real.exp_pos _)) (Real.exp_pos _) hden
  have hsub : Real.exp (-1e10) / Real.exp (raw j) = Real.exp (-1e10 - raw j) := by
    rw [Real.exp_sub]
  have hexp : Real.exp (-1e10 - raw j) ≤ Real.exp (-10) := by
    apply Real.exp_le_exp.mpr
    linarith
  calc forwardWeights raw mask i
      ≤ Real.exp (-1e10) / Real.exp (raw j) := hratio
    _ = Real.exp (-1e10 - raw j) := hsub
    _ ≤ Real.exp (-10) := hexp
    _ < 1e-4 := exp_neg_ten_lt

lemma forwardWeights_zero_mask (i : Fin 2) :
    forwardWeights (fun _ => (0 : ℝ)) (fun _ => (0 : ℝ)) i = 1 / 2 := by
  unfold forwardWeights maskedLogits
  rw [Fin.sum_univ_two]
  norm_num
  rw [← two_mul, div_eq_div_iff (by positivity) (by norm_num)]
  ring

/-- Claim C1, counterexample: the claim quantifies over every input batch,
but with the all-zero mask (an empty requested-ticker set reaches
`forward` with exactly this mask) every logit equals `-1e10`, so the
softmax output is the uniform vector: a masked-out position receives
weight `1/n`, far above the `1e-4` tolerance.  The sum-to-one half of
the claim is unaffected. -/
theorem c1_counterexample :
    ¬ (∀ (n : ℕ) (raw mask : Fin n → ℝ), (∀ i, mask i = 0 ∨ mask i = 1) →
        (|(∑ i, forwardWeights raw mask i) - 1| ≤ 1e-4 ∧
         ∀ i, mask i = 0 → |forwardWeights raw mask i| ≤ 1e-4)) := by
  intro h
  have h0 := (h 2 (fun _ => 0) (fun _ => 0) (fun _ => Or.inl rfl)).2 0 rfl
  rw [forwardWeights_zero_mask] at h0
  rw [abs_of_pos (by norm_num : (0 : ℝ) < 1 / 2)] at h0
  norm_num at h0

/-- Claim C1 (amended): for every input batch whose mask activates at
least one position, and whose raw logit at some active position is at
least `-1e10 + 10` (any network output of realistic magnitude), the
weight vector returned by the forward pass sums exactly to 1 and every
masked-out position receives weight below the `1e-4` tolerance.  The
all-zero mask instead yields the uniform vector (see the
counterexample); the sum-to-one half holds for every mask. -/
theorem c1_masked_softmax_amended {n : ℕ} (raw mask : Fin n → ℝ)
    (hn : 0 < n) (hmask : ∀ i, mask i = 0 ∨ mask i = 1)
    (hactive : ∃ j, mask j = 1 ∧ -1e10 + 10 ≤ raw j) :
    (∑ i, forwardWeights raw mask i) = 1 ∧
    ∀ i, mask i = 0 → forwardWeights raw mask i < 1e-4 := by
  obtain ⟨j, hj, hraw⟩ := hactive
  exact ⟨forwardWeights_sum raw mask hn,
    fun i hi => forwardWeights_masked_small raw mask i j hi hj hraw⟩

/-- Witness for the amended C1 theorem at a concrete batch: universe of
two assets, first active with raw logit 0, second masked off. -/
theorem c1_witness :
    (∑ i, forwardWeights (fun _ => (0 : ℝ))
      (fun i : Fin 2 => if i.val = 0 then 1 else 0) i) = 1 ∧
    ∀ i, (fun i : Fin 2 => if i.val = 0 then (1 : ℝ) else 0) i = 0 →
      forwardWeights (fun _ => (0 : ℝ))
        (fun i : Fin 2 => if i.val = 0 then 1 else 0) i < 1e-4 :=
  c1_masked_softmax_amended _ _ (by norm_num)
    (fun i => by by_cases h : i.val = 0 <;> simp [h])
    ⟨0, by norm_num, by norm_num⟩

/-! ### Inference output assembly (PortfolioOptimizer.predict, lines 952-961)

The code keeps `weights[i]` in the returned dictionary exactly when
`mask[i] > 0 and weights[i] > 0.001`, with no renormalization. -/

open Classical in
/-- Index set of the tickers included in the dictionary returned by
`predict`: mask bit positive and predicted weight above `0.001`. -/
noncomputable def predictIncluded {n : ℕ} (w mask : Fin n → ℝ) : Finset (Fin n) :=
  Finset.univ.filter (fun i => 0 < mask i ∧ 0.001 < w i)

/-- The returned ticker-to-weight mapping of `predict`, as a total
function with 0 at the omitted positions: included positions carry the
raw softmax output, untouched. -/
noncomputable def predictPortfolioWeights {n : ℕ} (w mask : Fin n → ℝ) : Fin n → ℝ :=
  fun i => if i ∈ predictIncluded w mask then w i else 0

open Classical in
/-- Total weight the model assigned to the active subset (mask bit 1). -/
noncomputable def maskActiveSum {n : ℕ} (w mask : Fin n → ℝ) : ℝ :=
  ∑ i ∈ Finset.univ.filter (fun i => mask i = 1), w i

/-- Concrete raw logits exercising the inclusion threshold: the second
asset gets logit -10, every other asset logit 0. -/
def raw10 : Fin 10 → ℝ := fun i => if i.val = 1 then -10 else 0

/-- Concrete activity mask: the first two assets active. -/
def mask10 : Fin 10 → ℝ := fun i => if i.val < 2 then 1 else 0

lemma logits10_le_zero (i : Fin 10) : maskedLogits raw10 mask10 i ≤ 0 := by
  unfold maskedLogits raw10 mask10
  by_cases h1 : i.val = 1
  · simp [h1]
  · by_cases h2 : i.val < 2
    · simp [h1, h2]
    · simp [h1, h2]
      norm_num

lemma logits10_zero : maskedLogits raw10 mask10 0 = 0 := by
  unfold maskedLogits raw10 mask10
  norm_num

lemma logits10_one : maskedLogits raw10 mask10 1 = -10 := by
  unfold maskedLogits raw10 mask10
  norm_num

lemma D10_ge_one : 1 ≤ ∑ j, Real.exp (maskedLogits raw10 mask10 j) := by
  have h0 : Real.exp (maskedLogits raw10 mask10 0) = 1 := by
    rw [logits10_zero, Real.exp_zero]
  calc (1 : ℝ) = Real.exp (maskedLogits raw10 mask10 0) := h0.symm
    _ ≤ ∑ j, Real.exp (maskedLogits raw10 mask10 j) :=
      Finset.single_le_sum (f := fun j => Real.exp (maskedLogits raw10 mask10 j))
        (fun j _ => le_of_lt (Real.exp_pos _)) (Finset.mem_univ 0)

lemma D10_le_ten : (∑ j, Real.exp (maskedLogits raw10 mask10 j)) ≤ 10 := by
  have hb : ∀ j ∈ Finset.univ, Real.exp (maskedLogits raw10 mask10 j) ≤ 1 :=
    fun j _ => Real.exp_le_one_iff.mpr (logits10_le_zero j)
  calc (∑ j, Real.exp (maskedLogits raw10 mask10 j))
      ≤ (Finset.univ : Finset (Fin 10)).card • (1 : ℝ) :=
        Finset.sum_le_card_nsmul _ _ _ hb
    _ = 10 := by simp

lemma fw10_first : 0.001 < forwardWeights raw10 mask10 0 := by
  unfold forwardWeights
  rw [logits10_zero, Real.exp_zero]
  have hD : 0 < ∑ j, Real.exp (maskedLogits raw10 mask10 j) := expSum_pos _ (by norm_num)
  have h10 := D10_le_ten
  calc (0.001 : ℝ) < 1 / 10 := by norm_num
    _ ≤ 1 / ∑ j, Real.exp (maskedLogits raw10 mask10 j) := by
        apply one_div_le_one_div_of_le hD h10
  -- note the orientation of the final inequality

lemma fw10_second_lt : forwardWeights raw10 mask10 1 < 0.001 := by
  unfold forwardWeights
  rw [logits10_one]
  have hD1 := D10_ge_one
  have hself : Real.exp (-10) / (∑ j, Real.exp (maskedLogits raw10 mask10 j)) ≤
      Real.exp (-10) := by
    apply div_le_self (le_of_lt (Real.exp_pos _)) hD1
  have := exp_neg_ten_lt
  calc Real.exp (-10) / (∑ j, Real.exp (maskedLogits raw10 mask10 j))
      ≤ Real.exp (-10) := hself
    _ < 1e-4 := exp_neg_ten_lt
    _ < 0.001 := by norm_num

lemma fw10_second_pos : 0 < forwardWeights raw10 mask10 1 :=
  forwardWeights_pos raw10 mask10 (by norm_num) 1

open Classical in
lemma included10_subset :
    predictIncluded (forwardWeights raw10 mask10) mask10 ⊆
      (Finset.univ.filter (fun i => mask10 i = 1)).erase 1 := by
  intro i hi
  rw [predictIncluded, Finset.mem_filter] at hi
  obtain ⟨-, hm, hw⟩ := hi
  have hmask1 : mask10 i = 1 := by
    unfold mask10 at hm ⊢
    by_cases h : i.val < 2
    · simp [h]
    · simp [h] at hm
  have hne : i ≠ 1 := by
    intro he
    rw [he] at hw
    exact absurd hw (not_lt.mpr (le_of_lt fw10_second_lt))
  rw [Finset.mem_erase, Finset.mem_filter]
  exact ⟨hne, Finset.mem_univ i, hmask1⟩

open Classical in
lemma mask10_one_active : (1 : Fin 10) ∈ Finset.univ.filter (fun i => mask10 i = 1) := by
  rw [Finset.mem_filter]
  refine ⟨Finset.mem_univ _, ?_⟩
  unfold mask10
  norm_num

/-- Claim C10: for every predict call the returned mapping carries the
raw softmax outputs at the included positions with no renormalization,
so the returned weights sum to at most 1; and on a concrete input on
which an active asset receives a positive weight at most 0.001, the
returned sum is strictly below the total weight the model assigned to
the active subset. -/
theorem c10_no_renormalization {n : ℕ} (raw mask : Fin n → ℝ) (hn : 0 < n) :
    (∀ i ∈ predictIncluded (forwardWeights raw mask) mask,
        predictPortfolioWeights (forwardWeights raw mask) mask i =
          forwardWeights raw mask i) ∧
    (∑ i, predictPortfolioWeights (forwardWeights raw mask) mask i) ≤ 1 ∧
    (∑ i, predictPortfolioWeights (forwardWeights raw10 mask10) mask10 i) <
      maskActiveSum (forwardWeights raw10 mask10) mask10 := by
  classical
  refine ⟨fun i hi => if_pos hi, ?_, ?_⟩
  · have hsum : (∑ i, predictPortfolioWeights (forwardWeights raw mask) mask i) =
        ∑ i ∈ predictIncluded (forwardWeights raw mask) mask, forwardWeights raw mask i := by
      unfold predictPortfolioWeights
      rw [Finset.sum_ite_mem, Finset.inter_comm, Finset.inter_univ]
    rw [hsum]
    calc (∑ i ∈ predictIncluded (forwardWeights raw mask) mask, forwardWeights raw mask i)
        ≤ ∑ i, forwardWeights raw mask i := by
          apply Finset.sum_le_sum_of_subset_of_nonneg (Finset.subset_univ _)
          intro i _ _
          exact forwardWeights_nonneg raw mask i
      _ = 1 := forwardWeights_sum raw mask hn
  · have hsum : (∑ i, predictPortfolioWeights (forwardWeights raw10 mask10) mask10 i) =
        ∑ i ∈ predictIncluded (forwardWeights raw10 mask10) mask10,
          forwardWeights raw10 mask10 i := by
      unfold predictPortfolioWeights
      rw [Finset.sum_ite_mem, Finset.inter_comm, Finset.inter_univ]
    rw [hsum, maskActiveSum]
    set A := Finset.univ.filter (fun i => mask10 i = 1) with hA
    have hle : (∑ i ∈ predictIncluded (forwardWeights raw10 mask10) mask10,
        forwardWeights raw10 mask10 i) ≤ ∑ i ∈ A.erase 1, forwardWeights raw10 mask10 i := by
      apply Finset.sum_le_sum_of_subset_of_nonneg included10_subset
      intro i _ _
      exact forwardWeights_nonneg raw10 mask10 i
    have hlt : (∑ i ∈ A.erase 1, forwardWeights raw10 mask10 i) <
        ∑ i ∈ A, forwardWeights raw10 mask10 i := by
      have := Finset.sum_erase_add A (fun i => forwardWeights raw10 mask10 i) mask10_one_active
      have hpos := fw10_second_pos
      linarith
    exact lt_of_le_of_lt hle hlt

/-- Witness for C10 at the concrete ten-asset input. -/
theorem c10_witness :
    (∀ i ∈ predictIncluded (forwardWeights raw10 mask10) mask10,
        predictPortfolioWeights (forwardWeights raw10 mask10) mask10 i =
          forwardWeights raw10 mask10 i) ∧
    (∑ i, predictPortfolioWeights (forwardWeights raw10 mask10) mask10 i) ≤ 1 ∧
    (∑ i, predictPortfolioWeights (forwardWeights raw10 mask10) mask10 i) <
      maskActiveSum (forwardWeights raw10 mask10) mask10 :=
  c10_no_renormalization raw10 mask10 (by norm_num)

/-! ### Target-weight synthesizer
(PortfolioDataset._calculate_target_weights, lines 413-515, and
PortfolioDataset._equal_risk_contribution, lines 517-561)

The returns window passed in is the active-column slice
`returns_window[:, active_indices]`, a `window_size x num_active`
array whose entries may be NaN; rows are lists of `Fin k → Option ℝ`
with `none` standing for NaN.  `active_indices` (distinct indices,
drawn with `replace=False`) becomes a map `Fin k → Fin N`. -/

/-- Equal weights `np.ones(n) / n`. -/
noncomputable def equalW (k : ℕ) : Fin k → ℝ := fun _ => 1 / k

/-- A row survives `returns[~np.isnan(returns).any(axis=1)]` iff no entry
is NaN. -/
def rowValid {k : ℕ} (r : Fin k → Option ℝ) : Prop := ∀ i, (r i).isSome

instance {k : ℕ} (r : Fin k → Option ℝ) : Decidable (rowValid r) := by
  unfold rowValid; infer_instance

/-- The NaN-free rows of the window (`valid_returns`). -/
def validRows {k : ℕ} (rows : List (Fin k → Option ℝ)) : List (Fin k → ℝ) :=
  (rows.filter (fun r => decide (rowValid r))).map (fun r i => (r i).getD 0)

/-- Column mean `np.mean(valid_returns, axis=0)`. -/
noncomputable def colMean {k : ℕ} (data : List (Fin k → ℝ)) : Fin k → ℝ :=
  fun i => (data.map (fun r => r i)).sum / data.length

/-- Sample covariance `np.cov(valid_returns.T)` (ddof = 1). -/
noncomputable def sampleCov {k : ℕ} (data : List (Fin k → ℝ)) : Fin k → Fin k → ℝ :=
  fun i j =>
    (data.map (fun r => (r i - colMean data i) * (r j - colMean data j))).sum /
      ((data.length : ℝ) - 1)

/-- Quadratic form `w.T @ cov @ w`. -/
noncomputable def quadForm {k : ℕ} (cov : Fin k → Fin k → ℝ) (w : Fin k → ℝ) : ℝ :=
  ∑ i, ∑ j, w i * cov i j * w j

/-- Risk contribution of the `_equal_risk_contribution` loop body
(lines 536-546): `risk_contrib = weights * (cov @ weights
/ portfolio_vol)` with `portfolio_vol = sqrt(w.T @ cov @ w)`. -/
noncomputable def ercRC {k : ℕ} (cov : Fin k → Fin k → ℝ) (w : Fin k → ℝ) :
    Fin k → ℝ :=
  fun i => w i * ((∑ j, cov i j * w j) / Real.sqrt (quadForm cov w))

open Classical in
/-- One body of the `_equal_risk_contribution` loop before the
renormalization (lines 548-558): target the mean risk contribution,
per-asset multiplier `target / rc i` left at 1 whenever
`rc i <= 1e-10`. -/
noncomputable def ercStep {k : ℕ} (cov : Fin k → Fin k → ℝ) (w : Fin k → ℝ) :
    Fin k → ℝ :=
  fun i => w i *
    (if 1e-10 < ercRC cov w i then ((∑ m, ercRC cov w m) / k) / ercRC cov w i
     else 1)

open Classical in
/-- The fixed-count iterations of `_equal_risk_contribution`
(lines 534-559).  The early return inside the loop body
(`portfolio_vol <= 1e-10`) exits the whole function with equal
weights. -/
noncomputable def ercLoop {k : ℕ} (cov : Fin k → Fin k → ℝ) :
    ℕ → (Fin k → ℝ) → (Fin k → ℝ)
  | 0, w => w
  | t + 1, w =>
    if Real.sqrt (quadForm cov w) ≤ 1e-10 then equalW k
    else ercLoop cov t (fun i => ercStep cov w i / ∑ j, ercStep cov w j)

open Classical in
/-- The `_equal_risk_contribution` solver: equal start, all-zero
covariance short-circuit, then the 100-iteration loop. -/
noncomputable def erc {k : ℕ} (cov : Fin k → Fin k → ℝ) : Fin k → ℝ :=
  if ∀ i j, cov i j = 0 then equalW k
  else ercLoop cov 100 (equalW k)

/-- Risk-scaled pseudo-Sharpe ratios `sharpe * (risk_tolerance / 5.0)`
(lines 451-455). -/
noncomputable def sharpeAdj {k : ℕ} (μ : Fin k → ℝ) (cov : Fin k → Fin k → ℝ)
    (risk : ℕ) : Fin k → ℝ :=
  fun i => μ i / Real.sqrt (cov i i) * ((risk : ℝ) / 5)

open Classical in
/-- The Maximum-Sharpe branch (strategy 0, lines 441-464). -/
noncomputable def maxSharpeW {k : ℕ} (μ : Fin k → ℝ) (cov : Fin k → Fin k → ℝ)
    (risk : ℕ) : Fin k → ℝ :=
  if ∃ i, cov i i ≤ 0 then equalW k
  else if ∃ i, 0 < sharpeAdj μ cov risk i then
    if 0 < ∑ i, max (sharpeAdj μ cov risk i) 0 then
      fun i => max (sharpeAdj μ cov risk i) 0 / ∑ j, max (sharpeAdj μ cov risk j) 0
    else equalW k
  else equalW k

open Classical in
/-- The inverse-volatility weights of the Minimum-Volatility branch
before the risk blend (lines 474-480), with the equal-weight fallback
on a non-positive volatility. -/
noncomputable def minVolBase {k : ℕ} (cov : Fin k → Fin k → ℝ) : Fin k → ℝ :=
  if ∃ i, Real.sqrt (cov i i) ≤ 0 then equalW k
  else fun i => (1 / Real.sqrt (cov i i)) / ∑ j, 1 / Real.sqrt (cov j j)

/-- The Minimum-Volatility branch (strategy 1, lines 466-485): the
risk blend `(1 - risk/10) * invvol + (risk/10) * equal` applied in all
cases. -/
noncomputable def minVolW {k : ℕ} (cov : Fin k → Fin k → ℝ) (risk : ℕ) :
    Fin k → ℝ :=
  fun i => (1 - (risk : ℝ) / 10) * minVolBase cov i +
    (risk : ℝ) / 10 * equalW k i

open Classical in
/-- The multiplicative skew of the Equal-Risk-Contribution branch for
risk tolerance above 5 (lines 497-507): `1 + (risk-5)/5` on assets
with above-average mean return, 1 elsewhere. -/
noncomputable def ercSkew {k : ℕ} (μ : Fin k → ℝ) (risk : ℕ) : Fin k → ℝ :=
  fun i => 1 + ((risk : ℝ) - 5) / 5 * (if (∑ m, μ m) / k < μ i then 1 else 0)

open Classical in
/-- The Equal-Risk-Contribution branch (strategy 2, lines 487-511): the
ERC solver followed by the above-average-return skew for risk
tolerance above 5. -/
noncomputable def ercAdjusted {k : ℕ} (μ : Fin k → ℝ) (cov : Fin k → Fin k → ℝ)
    (risk : ℕ) : Fin k → ℝ :=
  if 5 < risk then
    if 0 < ∑ i, erc cov i * ercSkew μ risk i then
      fun i => erc cov i * ercSkew μ risk i / ∑ j, erc cov j * ercSkew μ risk j
    else equalW k
  else erc cov

/-- Dispatch on the strategy index over the valid rows. -/
noncomputable def activeWeights {k : ℕ} (valid : List (Fin k → ℝ))
    (strategy : Fin 3) (risk : ℕ) : Fin k → ℝ :=
  if strategy = 0 then maxSharpeW (colMean valid) (sampleCov valid) risk
  else if strategy = 1 then minVolW (sampleCov valid) risk
  else ercAdjusted (colMean valid) (sampleCov valid) risk

/-- Re-embedding of active weights into the full universe
(`full_weights[active_indices] = active_weights`; the indices are
distinct, so the sum below has at most one non-zero summand per
position). -/
noncomputable def embedFull {N k : ℕ} (active : Fin k → Fin N) (w : Fin k → ℝ) : Fin N → ℝ :=
  fun j => ∑ i, if active i = j then w i else 0

/-- The `_calculate_target_weights` pipeline.  `none` models the
exception raised on a single active asset with at least two valid
rows: `np.cov` squeezes the 1x1 covariance matrix to a 0-d array, on
which `np.diag` (Max-Sharpe and Min-Volatility) raises ValueError and
`cov_matrix.shape[0]` (Equal-Risk-Contribution) raises IndexError.
(`k = 0` is unreachable: callers always pass a non-empty subset.) -/
noncomputable def calcTargetWeights {N k : ℕ} (rows : List (Fin k → Option ℝ))
    (strategy : Fin 3) (risk : ℕ) (active : Fin k → Fin N) :
    Option (Fin N → ℝ) :=
  let valid := validRows rows
  if valid.length < 2 then some (embedFull active (equalW k))
  else if k ≤ 1 then none
  else some (embedFull active (activeWeights valid strategy risk))

lemma equalW_nonneg {k : ℕ} (i : Fin k) : 0 ≤ equalW k i :=
  div_nonneg zero_le_one (Nat.cast_nonneg k)

lemma equalW_pos {k : ℕ} (hk : 0 < k) (i : Fin k) : 0 < equalW k i := by
  unfold equalW
  have : (0 : ℝ) < k := by exact_mod_cast hk
  positivity

lemma equalW_sum {k : ℕ} (hk : 0 < k) : (∑ i, equalW k i) = 1 := by
  unfold equalW
  rw [Finset.sum_const, Finset.card_univ, Fintype.card_fin, nsmul_eq_mul,
    mul_one_div]
  have : (0 : ℝ) < k := by exact_mod_cast hk
  exact div_self (ne_of_gt this)

lemma normalize_nonneg {k : ℕ} (w : Fin k → ℝ) (h0 : ∀ i, 0 ≤ w i)
    (hs : 0 < ∑ j, w j) (i : Fin k) : 0 ≤ w i / ∑ j, w j :=
  div_nonneg (h0 i) (le_of_lt hs)

lemma normalize_sum {k : ℕ} (w : Fin k → ℝ) (hs : 0 < ∑ j, w j) :
    (∑ i, w i / ∑ j, w j) = 1 := by
  rw [← Finset.sum_div]
  exact div_self (ne_of_gt hs)

lemma gram_expand {k : ℕ} (w : Fin k → ℝ) (c : List (Fin k → ℝ)) :
    (∑ i, ∑ j, w i * (c.map (fun r => r i * r j)).sum * w j) =
      (c.map (fun r => (∑ i, w i * r i) ^ 2)).sum := by
  induction c with
  | nil => simp
  | cons r t ih =>
    simp only [List.map_cons, List.sum_cons]
    have h1 : ∀ i j : Fin k,
        w i * (r i * r j + (t.map (fun r => r i * r j)).sum) * w j =
          w i * (r i * r j) * w j +
            w i * (t.map (fun r => r i * r j)).sum * w j := by
      intro i j; ring
    simp only [h1, Finset.sum_add_distrib]
    rw [ih]
    congr 1
    rw [sq, Finset.sum_mul_sum]
    apply Finset.sum_congr rfl
    intro i _
    apply Finset.sum_congr rfl
    intro j _
    ring

lemma quadForm_sampleCov {k : ℕ} (data : List (Fin k → ℝ)) (w : Fin k → ℝ) :
    quadForm (sampleCov data) w =
      ((data.map (fun r => (∑ i, w i * (r i - colMean data i)) ^ 2)).sum) /
        ((data.length : ℝ) - 1) := by
  unfold quadForm sampleCov
  have step1 : (∑ i, ∑ j, w i *
        ((data.map (fun r => (r i - colMean data i) * (r j - colMean data j))).sum /
          ((data.length : ℝ) - 1)) * w j) =
      (∑ i, ∑ j, w i *
        (data.map (fun r => (r i - colMean data i) * (r j - colMean data j))).sum *
          w j) / ((data.length : ℝ) - 1) := by
    rw [Finset.sum_div]
    apply Finset.sum_congr rfl
    intro i _
    rw [Finset.sum_div]
    apply Finset.sum_congr rfl
    intro j _
    ring
  rw [step1]
  congr 1
  have hcomp : ∀ i j : Fin k,
      (data.map (fun r => (r i - colMean data i) * (r j - colMean data j))) =
        ((data.map (fun r i => r i - colMean data i)).map (fun r => r i * r j)) := by
    intro i j
    rw [List.map_map]
    rfl
  simp only [hcomp]
  rw [gram_expand w (data.map (fun r i => r i - colMean data i)), List.map_map]
  rfl

/-- The sample covariance matrix of at least two observations is
positive semidefinite: the quadratic form is a scaled sum of squares. -/
lemma sampleCov_psd {k : ℕ} (data : List (Fin k → ℝ)) (hm : 2 ≤ data.length)
    (w : Fin k → ℝ) : 0 ≤ quadForm (sampleCov data) w := by
  rw [quadForm_sampleCov]
  apply div_nonneg
  · apply List.sum_nonneg
    intro x hx
    simp only [List.mem_map] at hx
    obtain ⟨r, -, rfl⟩ := hx
    positivity
  · have : (2 : ℝ) ≤ data.length := by exact_mod_cast hm
    linarith

lemma ercRC_sum {k : ℕ} (cov : Fin k → Fin k → ℝ) (w : Fin k → ℝ) :
    (∑ i, ercRC cov w i) = quadForm cov w / Real.sqrt (quadForm cov w) := by
  unfold ercRC
  have hterm : ∀ i : Fin k,
      w i * ((∑ j, cov i j * w j) / Real.sqrt (quadForm cov w)) =
        (∑ j, w i * cov i j * w j) / Real.sqrt (quadForm cov w) := by
    intro i
    rw [mul_div_assoc']
    congr 1
    rw [Finset.mul_sum]
    apply Finset.sum_congr rfl
    intro j _
    ring
  simp only [hterm]
  rw [← Finset.sum_div]
  rfl

lemma ercStep_pos {k : ℕ} (cov : Fin k → Fin k → ℝ) (w : Fin k → ℝ)
    (hk : 0 < k) (hq : 0 ≤ quadForm cov w)
    (hσ : ¬ Real.sqrt (quadForm cov w) ≤ 1e-10)
    (hw : ∀ i, 0 < w i) (i : Fin k) : 0 < ercStep cov w i := by
  push_neg at hσ
  have hσpos : 0 < Real.sqrt (quadForm cov w) := lt_trans (by norm_num) hσ
  have hqpos : 0 < quadForm cov w := by
    have h2 := Real.sq_sqrt hq
    nlinarith [hσpos]
  have htarget : 0 < (∑ m, ercRC cov w m) / k := by
    rw [ercRC_sum]
    have hkR : (0 : ℝ) < k := by exact_mod_cast hk
    exact div_pos (div_pos hqpos hσpos) hkR
  unfold ercStep
  apply mul_pos (hw i)
  split_ifs with hrc
  · exact div_pos htarget (lt_trans (by norm_num) hrc)
  · norm_num

lemma ercLoop_simplex {k : ℕ} (cov : Fin k → Fin k → ℝ)
    (hpsd : ∀ v, 0 ≤ quadForm cov v) (hk : 0 < k) :
    ∀ (t : ℕ) (w : Fin k → ℝ), (∀ i, 0 < w i) → (∑ i, w i) = 1 →
      (∀ i, 0 < ercLoop cov t w i) ∧ (∑ i, ercLoop cov t w i) = 1 := by
  intro t
  induction t with
  | zero => exact fun w hw hs => ⟨hw, hs⟩
  | succ t ih =>
    intro w hw hs
    have hne : Nonempty (Fin k) := ⟨⟨0, hk⟩⟩
    by_cases hσ : Real.sqrt (quadForm cov w) ≤ 1e-10
    · simp only [ercLoop]
      rw [if_pos hσ]
      exact ⟨equalW_pos hk, equalW_sum hk⟩
    · simp only [ercLoop]
      rw [if_neg hσ]
      have hpos2 : ∀ i, 0 < ercStep cov w i :=
        fun i => ercStep_pos cov w hk (hpsd w) hσ hw i
      have hsum2 : 0 < ∑ j, ercStep cov w j :=
        Finset.sum_pos (fun j _ => hpos2 j) Finset.univ_nonempty
      exact ih _ (fun i => div_pos (hpos2 i) hsum2)
        (normalize_sum _ hsum2)

lemma erc_simplex {k : ℕ} (cov : Fin k → Fin k → ℝ)
    (hpsd : ∀ v, 0 ≤ quadForm cov v) (hk : 0 < k) :
    (∀ i, 0 < erc cov i) ∧ (∑ i, erc cov i) = 1 := by
  unfold erc
  split_ifs with h
  · exact ⟨equalW_pos hk, equalW_sum hk⟩
  · exact ercLoop_simplex cov hpsd hk 100 (equalW k)
      (equalW_pos hk) (equalW_sum hk)

lemma maxSharpeW_simplex {k : ℕ} (μ : Fin k → ℝ) (cov : Fin k → Fin k → ℝ)
    (risk : ℕ) (hk : 0 < k) :
    (∀ i, 0 ≤ maxSharpeW μ cov risk i) ∧ (∑ i, maxSharpeW μ cov risk i) = 1 := by
  unfold maxSharpeW
  split_ifs with h1 h2 h3
  · exact ⟨equalW_nonneg, equalW_sum hk⟩
  · exact ⟨fun i => normalize_nonneg _ (fun m => le_max_right _ _) h3 i,
      normalize_sum _ h3⟩
  · exact ⟨equalW_nonneg, equalW_sum hk⟩
  · exact ⟨equalW_nonneg, equalW_sum hk⟩

lemma minVolBase_simplex {k : ℕ} (cov : Fin k → Fin k → ℝ) (hk : 0 < k) :
    (∀ i, 0 ≤ minVolBase cov i) ∧ (∑ i, minVolBase cov i) = 1 := by
  have hne : Nonempty (Fin k) := ⟨⟨0, hk⟩⟩
  unfold minVolBase
  split_ifs with h
  · exact ⟨equalW_nonneg, equalW_sum hk⟩
  · push_neg at h
    have hpos : ∀ i, 0 < 1 / Real.sqrt (cov i i) :=
      fun i => one_div_pos.mpr (h i)
    have hsum : 0 < ∑ j, 1 / Real.sqrt (cov j j) :=
      Finset.sum_pos (fun j _ => hpos j) Finset.univ_nonempty
    exact ⟨fun i => normalize_nonneg _ (fun m => le_of_lt (hpos m)) hsum i,
      normalize_sum _ hsum⟩

lemma minVolW_simplex {k : ℕ} (cov : Fin k → Fin k → ℝ) (risk : ℕ)
    (hk : 0 < k) (hr : risk ≤ 10) :
    (∀ i, 0 ≤ minVolW cov risk i) ∧ (∑ i, minVolW cov risk i) = 1 := by
  have hb := minVolBase_simplex cov hk
  have hf0 : (0 : ℝ) ≤ (risk : ℝ) / 10 := by positivity
  have hf1 : (risk : ℝ) / 10 ≤ 1 := by
    rw [div_le_one (by norm_num)]
    exact_mod_cast hr
  constructor
  · intro i
    unfold minVolW
    exact add_nonneg (mul_nonneg (by linarith) (hb.1 i))
      (mul_nonneg hf0 (equalW_nonneg i))
  · unfold minVolW
    rw [Finset.sum_add_distrib, ← Finset.mul_sum, ← Finset.mul_sum, hb.2,
      equalW_sum hk]
    ring

lemma ercSkew_pos {k : ℕ} (μ : Fin k → ℝ) (risk : ℕ) (h5 : 5 < risk)
    (i : Fin k) : 0 < ercSkew μ risk i := by
  unfold ercSkew
  have h5R : (5 : ℝ) ≤ risk := by exact_mod_cast le_of_lt h5
  have h : (0 : ℝ) ≤ ((risk : ℝ) - 5) / 5 := by
    apply div_nonneg (by linarith) (by norm_num)
  split_ifs with hc
  · linarith
  · norm_num

lemma ercAdjusted_simplex {k : ℕ} (μ : Fin k → ℝ) (cov : Fin k → Fin k → ℝ)
    (risk : ℕ) (hpsd : ∀ v, 0 ≤ quadForm cov v) (hk : 0 < k) :
    (∀ i, 0 ≤ ercAdjusted μ cov risk i) ∧ (∑ i, ercAdjusted μ cov risk i) = 1 := by
  have he := erc_simplex cov hpsd hk
  unfold ercAdjusted
  split_ifs with h5 hpos
  · exact ⟨fun i => normalize_nonneg _
      (fun m => le_of_lt (mul_pos (he.1 m) (ercSkew_pos μ risk h5 m))) hpos i,
      normalize_sum _ hpos⟩
  · exact ⟨equalW_nonneg, equalW_sum hk⟩
  · exact ⟨fun i => le_of_lt (he.1 i), he.2⟩

lemma activeWeights_simplex {k : ℕ} (valid : List (Fin k → ℝ))
    (strategy : Fin 3) (risk : ℕ) (hm : 2 ≤ valid.length) (hk : 0 < k)
    (hr : risk ≤ 10) :
    (∀ i, 0 ≤ activeWeights valid strategy risk i) ∧
      (∑ i, activeWeights valid strategy risk i) = 1 := by
  have hpsd : ∀ v, 0 ≤ quadForm (sampleCov valid) v := sampleCov_psd valid hm
  unfold activeWeights
  split_ifs with h0 h1
  · exact maxSharpeW_simplex _ _ _ hk
  · exact minVolW_simplex _ _ hk hr
  · exact ercAdjusted_simplex _ _ _ hpsd hk

lemma embedFull_nonneg {N k : ℕ} (active : Fin k → Fin N) (w : Fin k → ℝ)
    (h0 : ∀ i, 0 ≤ w i) (j : Fin N) : 0 ≤ embedFull active w j := by
  apply Finset.sum_nonneg
  intro i _
  split_ifs with h
  · exact h0 i
  · exact le_rfl

lemma embedFull_zero_outside {N k : ℕ} (active : Fin k → Fin N)
    (w : Fin k → ℝ) {j : Fin N} (h : ∀ i, active i ≠ j) :
    embedFull active w j = 0 :=
  Finset.sum_eq_zero fun i _ => if_neg (h i)

lemma embedFull_sum {N k : ℕ} (active : Fin k → Fin N) (w : Fin k → ℝ) :
    (∑ j, embedFull active w j) = ∑ i, w i := by
  unfold embedFull
  rw [Finset.sum_comm]
  apply Finset.sum_congr rfl
  intro i _
  simp [Finset.sum_ite_eq]

/-- Claim C2: for every active subset of size at least 2, every
strategy, every integer risk tolerance up to 10 and every returns
window (degenerate ones included), `_calculate_target_weights` returns
a full-universe vector that is non-negative, zero outside the active
subset, and sums to one. -/
theorem c2_target_weights_simplex {N k : ℕ} (rows : List (Fin k → Option ℝ))
    (strategy : Fin 3) (risk : ℕ) (active : Fin k → Fin N)
    (hk : 2 ≤ k) (hr1 : 1 ≤ risk) (hr10 : risk ≤ 10) :
    ∃ w, calcTargetWeights rows strategy risk active = some w ∧
      (∀ j, 0 ≤ w j) ∧ (∀ j, (∀ i, active i ≠ j) → w j = 0) ∧
      (∑ j, w j) = 1 := by
  have hk0 : 0 < k := lt_of_lt_of_le (by norm_num) hk
  simp only [calcTargetWeights]
  by_cases hv : (validRows rows).length < 2
  · rw [if_pos hv]
    exact ⟨_, rfl, embedFull_nonneg _ _ equalW_nonneg,
      fun j hj => embedFull_zero_outside _ _ hj,
      by rw [embedFull_sum]; exact equalW_sum hk0⟩
  · rw [if_neg hv, if_neg (by omega : ¬ k ≤ 1)]
    have hm : 2 ≤ (validRows rows).length := by omega
    obtain ⟨hnn, hsum⟩ :=
      activeWeights_simplex (validRows rows) strategy risk hm hk0 hr10
    exact ⟨_, rfl, embedFull_nonneg _ _ hnn,
      fun j hj => embedFull_zero_outside _ _ hj,
      by rw [embedFull_sum]; exact hsum⟩

/-- Witness for C2 at a concrete degenerate input: two active assets,
an empty window (fewer than two valid rows), Max-Sharpe, risk 5. -/
theorem c2_witness :
    ∃ w, calcTargetWeights (N := 2) ([] : List (Fin 2 → Option ℝ)) 0 5 id =
        some w ∧
      (∀ j, 0 ≤ w j) ∧ (∀ j, (∀ i, id i ≠ j) → w j = 0) ∧ (∑ j, w j) = 1 :=
  c2_target_weights_simplex [] 0 5 id (by norm_num) (by norm_num) (by norm_num)

/-- Claim C3, code evaluation at the failing input: with a single
active asset and two valid rows, every strategy branch raises
(`np.cov` squeezes the 1x1 covariance to a 0-d array; `np.diag` then
raises ValueError in the Max-Sharpe and Min-Volatility branches and
`cov_matrix.shape[0]` raises IndexError in the ERC branch), so the
synthesizer never returns the weight 1.0 required by the claim. -/
theorem c3_single_asset_crash :
    ∀ strategy : Fin 3,
      calcTargetWeights (N := 1)
        [fun _ => some (0.01 : ℝ), fun _ => some (0.02 : ℝ)] strategy 5 id =
        none := by
  intro s
  have h1 : decide (rowValid (fun _ : Fin 1 => some (0.01 : ℝ))) = true :=
    decide_eq_true (fun i => rfl)
  have h2 : decide (rowValid (fun _ : Fin 1 => some (0.02 : ℝ))) = true :=
    decide_eq_true (fun i => rfl)
  have hlen : (validRows [fun _ : Fin 1 => some (0.01 : ℝ),
      fun _ => some (0.02 : ℝ)]).length = 2 := by
    unfold validRows
    rw [List.filter_cons, List.filter_cons, List.filter_nil, if_pos h1,
      if_pos h2]
    rfl
  simp only [calcTargetWeights]
  rw [if_neg (by rw [hlen]; norm_num), if_pos (le_refl 1)]

/-! ### Claim C6: the ERC solver against the words of the spec -/

open Classical in
/-- The Equal-Risk-Contribution iteration exactly as the claim words
it: each iteration computes the portfolio volatility
`sqrt(w.T cov w)` and returns equal weights immediately when it is at
most 1e-10; otherwise each weight is multiplied by mean risk
contribution over own risk contribution, the multiplier left at 1
where the contribution is at most 1e-10, and the weights are
renormalized to sum to 1.  No convergence check terminates the loop
early. -/
noncomputable def ercSpecLoop {k : ℕ} (cov : Fin k → Fin k → ℝ) :
    ℕ → (Fin k → ℝ) → (Fin k → ℝ)
  | 0, w => w
  | t + 1, w =>
    if Real.sqrt (quadForm cov w) ≤ 1e-10 then equalW k
    else
      ercSpecLoop cov t (fun i =>
        (if ercRC cov w i ≤ 1e-10 then w i
         else w i * (((∑ m, ercRC cov w m) / k) / ercRC cov w i)) /
        ∑ j, (if ercRC cov w j ≤ 1e-10 then w j
         else w j * (((∑ m, ercRC cov w m) / k) / ercRC cov w j)))

/-- The claim in full: the solver starts at equal weights and performs
exactly 100 iterations of the loop above. -/
noncomputable def ercPerClaim {k : ℕ} (cov : Fin k → Fin k → ℝ) : Fin k → ℝ :=
  ercSpecLoop cov 100 (equalW k)

lemma ercSpecLoop_eq_ercLoop {k : ℕ} (cov : Fin k → Fin k → ℝ) :
    ∀ (t : ℕ) (w : Fin k → ℝ), ercSpecLoop cov t w = ercLoop cov t w := by
  intro t
  induction t with
  | zero => exact fun w => rfl
  | succ t ih =>
    intro w
    simp only [ercSpecLoop, ercLoop]
    by_cases hσ : Real.sqrt (quadForm cov w) ≤ 1e-10
    · rw [if_pos hσ, if_pos hσ]
    · rw [if_neg hσ, if_neg hσ]
      have hnum : ∀ m : Fin k,
          (if ercRC cov w m ≤ 1e-10 then w m
           else w m * (((∑ x, ercRC cov w x) / k) / ercRC cov w m)) =
            ercStep cov w m := by
        intro m
        unfold ercStep
        by_cases h : 1e-10 < ercRC cov w m
        · rw [if_neg (not_le.mpr h), if_pos h]
        · rw [if_pos (not_lt.mp h), if_neg h, mul_one]
      have hfun : (fun i =>
          (if ercRC cov w i ≤ 1e-10 then w i
           else w i * (((∑ m, ercRC cov w m) / k) / ercRC cov w i)) /
          ∑ j, (if ercRC cov w j ≤ 1e-10 then w j
           else w j * (((∑ m, ercRC cov w m) / k) / ercRC cov w j))) =
          (fun i => ercStep cov w i / ∑ j, ercStep cov w j) := by
        funext i
        rw [hnum i]
        congr 1
        apply Finset.sum_congr rfl
        intro j _
        rw [hnum j]
      rw [hfun]
      exact ih _

lemma ercSpecLoop_succ_degenerate {k : ℕ} (cov : Fin k → Fin k → ℝ) (t : ℕ)
    (w : Fin k → ℝ) (hσ : Real.sqrt (quadForm cov w) ≤ 1e-10) :
    ercSpecLoop cov (t + 1) w = equalW k := by
  rw [ercSpecLoop]
  exact if_pos hσ

/-- Claim C6: `_equal_risk_contribution` behaves exactly as the claim
describes it — equal-weight start, exactly 100 iterations, immediate
equal-weight return on near-zero portfolio volatility, multiplier left
at 1 on near-zero contributions, renormalization each iteration, and
no earlier convergence exit.  The only structural difference in the
code, the all-zero-covariance pre-check, is unobservable: a zero
matrix makes the first iteration return equal weights anyway. -/
theorem c6_erc_algorithm {k : ℕ} (cov : Fin k → Fin k → ℝ) :
    erc cov = ercPerClaim cov := by
  unfold erc ercPerClaim
  split_ifs with h
  · have hq : quadForm cov (equalW k) = 0 := by
      unfold quadForm
      simp [h]
    rw [show (100 : ℕ) = 99 + 1 by norm_num]
    exact (ercSpecLoop_succ_degenerate cov 99 (equalW k)
      (by rw [hq, Real.sqrt_zero]; norm_num)).symm
  · exact (ercSpecLoop_eq_ercLoop cov 100 (equalW k)).symm

/-! ### Claim C7: the Minimum-Volatility blend formula -/

/-- Normalized inverse-volatility weights, as the claim words them. -/
noncomputable def invVolW {k : ℕ} (cov : Fin k → Fin k → ℝ) : Fin k → ℝ :=
  fun i => (1 / Real.sqrt (cov i i)) / ∑ j, 1 / Real.sqrt (cov j j)

/-- The claim's formula for the Minimum-Volatility output:
`(1 - risk/10) * invvol + (risk/10) * equal`. -/
noncomputable def blendPerClaim {k : ℕ} (cov : Fin k → Fin k → ℝ) (risk : ℕ) :
    Fin k → ℝ :=
  fun i => (1 - (risk : ℝ) / 10) * invVolW cov i +
    (risk : ℝ) / 10 * equalW k i

/-- Claim C7: with at least two active assets, at least two valid rows
and strictly positive per-asset variances, the Min-Volatility strategy
returns exactly the blend `(1 - risk/10) * invvol + (risk/10) * equal`
re-embedded into the universe, and consequently the output at risk 1
is (in summed absolute deviation) at least as close to the pure
inverse-volatility weights as the output at risk 10, which is at least
as close to equal weights as the output at risk 1. -/
theorem c7_minvol_blend {N k : ℕ} (rows : List (Fin k → Option ℝ))
    (risk : ℕ) (active : Fin k → Fin N) (hk : 2 ≤ k)
    (hm : 2 ≤ (validRows rows).length)
    (hv : ∀ i, 0 < sampleCov (validRows rows) i i)
    (hr1 : 1 ≤ risk) (hr10 : risk ≤ 10) :
    calcTargetWeights rows 1 risk active =
      some (embedFull active (blendPerClaim (sampleCov (validRows rows)) risk)) ∧
    (∑ i, |blendPerClaim (sampleCov (validRows rows)) 1 i -
        invVolW (sampleCov (validRows rows)) i|) ≤
      (∑ i, |blendPerClaim (sampleCov (validRows rows)) 10 i -
        invVolW (sampleCov (validRows rows)) i|) ∧
    (∑ i, |blendPerClaim (sampleCov (validRows rows)) 10 i - equalW k i|) ≤
      (∑ i, |blendPerClaim (sampleCov (validRows rows)) 1 i - equalW k i|) := by
  refine ⟨?_, ?_, ?_⟩
  · simp only [calcTargetWeights]
    rw [if_neg (by omega), if_neg (by omega)]
    congr 1
    unfold activeWeights
    rw [if_neg (by decide : ¬ (1 : Fin 3) = 0), if_pos rfl]
    unfold minVolW blendPerClaim minVolBase invVolW
    funext i
    rw [if_neg]
    push_neg
    intro m
    exact Real.sqrt_pos.mpr (hv m)
  · apply Finset.sum_le_sum
    intro i _
    have hd1 : blendPerClaim (sampleCov (validRows rows)) 1 i -
        invVolW (sampleCov (validRows rows)) i =
          1 / 10 * (equalW k i - invVolW (sampleCov (validRows rows)) i) := by
      unfold blendPerClaim
      push_cast
      ring
    have hd10 : blendPerClaim (sampleCov (validRows rows)) 10 i -
        invVolW (sampleCov (validRows rows)) i =
          equalW k i - invVolW (sampleCov (validRows rows)) i := by
      unfold blendPerClaim
      push_cast
      ring
    rw [hd1, hd10, abs_mul]
    have habs : |(1 / 10 : ℝ)| = 1 / 10 := by
      rw [abs_of_pos]
      norm_num
    rw [habs]
    have h0 := abs_nonneg (equalW k i - invVolW (sampleCov (validRows rows)) i)
    linarith
  · have hzero : ∀ i : Fin k,
        blendPerClaim (sampleCov (validRows rows)) 10 i - equalW k i = 0 := by
      intro i
      unfold blendPerClaim
      push_cast
      ring
    have : (∑ i, |blendPerClaim (sampleCov (validRows rows)) 10 i - equalW k i|) = 0 := by
      apply Finset.sum_eq_zero
      intro i _
      rw [hzero i, abs_zero]
    rw [this]
    apply Finset.sum_nonneg
    intro i _
    exact abs_nonneg _

/-- Concrete two-asset window for the C7 witness: one asset with small
swings, one with large swings, no NaN entries. -/
noncomputable def rows7 : List (Fin 2 → Option ℝ) :=
  [fun i => if i.val = 0 then some 0.1 else some 0.4,
   fun i => if i.val = 0 then some (-0.1) else some (-0.4)]

lemma rows7_valid : validRows rows7 =
    [fun i => if i.val = 0 then (0.1 : ℝ) else 0.4,
     fun i => if i.val = 0 then (-0.1 : ℝ) else -0.4] := by
  have h1 : decide (rowValid
      (fun i : Fin 2 => if i.val = 0 then some (0.1 : ℝ) else some 0.4)) = true := by
    apply decide_eq_true
    intro i
    by_cases h : i.val = 0 <;> simp [h]
  have h2 : decide (rowValid
      (fun i : Fin 2 => if i.val = 0 then some (-0.1 : ℝ) else some (-0.4))) = true := by
    apply decide_eq_true
    intro i
    by_cases h : i.val = 0 <;> simp [h]
  unfold validRows rows7
  rw [List.filter_cons, List.filter_cons, List.filter_nil, if_pos h1, if_pos h2]
  simp only [List.map_cons, List.map_nil]
  congr 1
  · funext i
    by_cases h : i.val = 0 <;> simp [h]
  congr 1
  funext i
  by_cases h : i.val = 0 <;> simp [h]

lemma rows7_len : 2 ≤ (validRows rows7).length := by
  rw [rows7_valid]
  norm_num

lemma rows7_var_pos : ∀ i, 0 < sampleCov (validRows rows7) i i := by
  intro i
  rw [rows7_valid]
  fin_cases i <;>
    · simp only [sampleCov, colMean, List.map_cons, List.map_nil, List.sum_cons,
        List.sum_nil, List.length_cons, List.length_nil]
      norm_num

/-- Witness for C7 at the concrete window, risk tolerance 1. -/
theorem c7_witness :
    calcTargetWeights rows7 1 1 (id : Fin 2 → Fin 2) =
      some (embedFull id (blendPerClaim (sampleCov (validRows rows7)) 1)) ∧
    (∑ i, |blendPerClaim (sampleCov (validRows rows7)) 1 i -
        invVolW (sampleCov (validRows rows7)) i|) ≤
      (∑ i, |blendPerClaim (sampleCov (validRows rows7)) 10 i -
        invVolW (sampleCov (validRows rows7)) i|) ∧
    (∑ i, |blendPerClaim (sampleCov (validRows rows7)) 10 i - equalW 2 i|) ≤
      (∑ i, |blendPerClaim (sampleCov (validRows rows7)) 1 i - equalW 2 i|) :=
  c7_minvol_blend rows7 1 id (by norm_num) rows7_len rows7_var_pos
    (by norm_num) (by norm_num)

/-! ### Inference mask construction
(PortfolioOptimizer.predict, lines 922-929, and app.py predict_portfolio)

`predict` hardcodes `all_tickers = TOP_STOCKS` (the module-level list)
when building the activity mask, while app.py validates the request
against the configurable `global_top_stocks` universe (and builds but
never passes its own `binary_mask`). -/

/-- The hardcoded module-level universe (portfolio_model.py lines 13-24). -/
def TOP_STOCKS : List String :=
  ["AAPL", "MSFT", "AMZN", "GOOGL", "META", "TSLA", "BRK-B", "JPM", "JNJ", "V"]

/-- The activity mask built by `predict` (lines 924-929): start from
`np.zeros(len(all_tickers))` with `all_tickers = TOP_STOCKS`, and set
position `all_tickers.index(ticker)` to 1 for every requested ticker
found in `TOP_STOCKS`. -/
def predictMask (active_tickers : List String) : List ℝ :=
  active_tickers.foldl
    (fun m t => if t ∈ TOP_STOCKS then m.set (TOP_STOCKS.indexOf t) 1 else m)
    (List.replicate TOP_STOCKS.length 0)

/-- Modelled from the spec: the activity mask the claim requires — a 1
at each configured-universe position whose ticker was requested, 0
elsewhere. -/
def maskPerSpec (univTickers requested : List String) : List ℝ :=
  univTickers.map (fun t => if t ∈ requested then 1 else 0)

/-- Claim C4, code evaluation at the failing input: with the configured
universe set to NVDA and AMD, a predict call for NVDA (a ticker inside
the configured universe) produces an all-zero length-10 mask, because
`predict` matches against the hardcoded TOP_STOCKS instead of the
configured universe; the claim instead requires a 1 at the
configured-universe position of NVDA. -/
theorem c4_mask_from_hardcoded_universe :
    ("NVDA" ∈ (["NVDA", "AMD"] : List String)) ∧
    predictMask ["NVDA"] = List.replicate 10 (0 : ℝ) ∧
    maskPerSpec ["NVDA", "AMD"] ["NVDA"] = [(1 : ℝ), 0] := by
  refine ⟨by simp, ?_, ?_⟩
  · unfold predictMask TOP_STOCKS
    simp only [List.foldl_cons, List.foldl_nil]
    rw [if_neg (by decide)]
    rfl
  · unfold maskPerSpec
    simp only [List.map_cons, List.map_nil]
    rw [if_pos (by decide), if_neg (by decide)]

/-! ### Application state and the predict endpoint
(app.py: module globals, predict_portfolio lines 203-265,
train_model_background lines 115-163)

The mutable module globals become an explicit state record; the model,
optimizer and prepared data tuple are abstracted to version tags,
since the claims only concern which objects are visible, not their
numeric content. -/

inductive TrainingStatus
  | not_started
  | training
  | completed
  | failed
deriving DecidableEq

/-- The module-level globals of app.py. -/
structure AppState where
  global_model : Option ℕ
  global_optimizer : Option ℕ
  global_data_tuple : Option ℕ
  global_top_stocks : List String
  training_status : TrainingStatus
deriving DecidableEq

inductive PredictError
  | modelNotTrained
  | noTrainingData
  | unknownTicker
deriving DecidableEq

/-- Control flow of `predict_portfolio`: reject when no trained model
or optimizer exists, then when no data tuple exists, then when a
requested ticker is outside `global_top_stocks`; otherwise the
response is computed from the stored model, the stored data tuple and
the request.  (The HTTP layer re-wraps the unknown-ticker rejection
into a generic 500 response, which is below this abstraction: the
error content is preserved.) -/
def predictPortfolio (s : AppState) (tickers : List String) :
    Except PredictError (ℕ × ℕ × List String) :=
  match s.global_model, s.global_optimizer with
  | some m, some _ =>
    match s.global_data_tuple with
    | some d =>
      if ∃ t ∈ tickers, t ∉ s.global_top_stocks then .error .unknownTicker
      else .ok (m, d, tickers)
    | none => .error .noTrainingData
  | _, _ => .error .modelNotTrained

/-- Claim C8: predict before any completed training fails with the
model-not-trained error; predict on a trained state with a ticker
outside the configured universe fails with the unknown-ticker error;
and predict succeeds only when a trained model exists and every
requested ticker is in the universe. -/
theorem c8_predict_errors (s : AppState) (tks : List String) :
    (s.global_model = none →
      predictPortfolio s tks = .error .modelNotTrained) ∧
    (∀ m o d, s.global_model = some m → s.global_optimizer = some o →
      s.global_data_tuple = some d → (∃ t ∈ tks, t ∉ s.global_top_stocks) →
      predictPortfolio s tks = .error .unknownTicker) ∧
    (∀ r, predictPortfolio s tks = .ok r →
      s.global_model ≠ none ∧ ∀ t ∈ tks, t ∈ s.global_top_stocks) := by
  refine ⟨?_, ?_, ?_⟩
  · intro h
    unfold predictPortfolio
    rw [h]
  · intro m o d hm ho hd hex
    unfold predictPortfolio
    rw [hm, ho, hd]
    exact if_pos hex
  · intro r hr
    rcases hmod : s.global_model with _ | m
    · have he : predictPortfolio s tks = .error .modelNotTrained := by
        unfold predictPortfolio
        rw [hmod]
      rw [he] at hr
      exact absurd hr (by simp)
    · rcases hopt : s.global_optimizer with _ | o
      · have he : predictPortfolio s tks = .error .modelNotTrained := by
          unfold predictPortfolio
          rw [hmod, hopt]
        rw [he] at hr
        exact absurd hr (by simp)
      · rcases hdat : s.global_data_tuple with _ | d
        · have he : predictPortfolio s tks = .error .noTrainingData := by
            unfold predictPortfolio
            rw [hmod, hopt, hdat]
          rw [he] at hr
          exact absurd hr (by simp)
        · by_cases hex : ∃ t ∈ tks, t ∉ s.global_top_stocks
          · have he : predictPortfolio s tks = .error .unknownTicker := by
              unfold predictPortfolio
              rw [hmod, hopt, hdat]
              exact if_pos hex
            rw [he] at hr
            exact absurd hr (by simp)
          · push_neg at hex
            refine ⟨?_, hex⟩
            simp

/-- Untrained initial state. -/
def s_untrained : AppState := ⟨none, none, none, ["AAPL"], .not_started⟩

/-- State after one successful training run over the universe AAPL. -/
def s_trained : AppState := ⟨some 0, some 0, some 0, ["AAPL"], .completed⟩

/-- Witness for C8 at the concrete states. -/
theorem c8_witness :
    predictPortfolio s_untrained ["AAPL"] = .error .modelNotTrained ∧
    predictPortfolio s_trained ["ZZZ"] = .error .unknownTicker :=
  ⟨(c8_predict_errors s_untrained ["AAPL"]).1 rfl,
   (c8_predict_errors s_trained ["ZZZ"]).2.1 0 0 0 rfl rfl rfl
     ⟨"ZZZ", by simp, by decide⟩⟩

/-! ### The background training task (train_model_background) -/

/-- Outcome parameters of one background run: whether data preparation
succeeds, the freshly prepared data tuple, whether the epoch loop
completes, and the freshly trained model and optimizer. -/
structure RunOutcome where
  dataPrepOk : Bool
  newData : ℕ
  trainOk : Bool
  newModel : ℕ
  newOptimizer : ℕ
deriving DecidableEq

/-- The successive global states written by `train_model_background`,
in program order: status becomes training; on successful data
preparation `global_data_tuple` is overwritten immediately (line 131,
before any training); on success model, optimizer and status are
written in turn; on any failure only the status is written. -/
def trainTrace (s : AppState) (r : RunOutcome) : List AppState :=
  let s1 : AppState := { s with training_status := .training }
  if r.dataPrepOk then
    let s2 := { s1 with global_data_tuple := some r.newData }
    if r.trainOk then
      let s3 := { s2 with global_model := some r.newModel }
      let s4 := { s3 with global_optimizer := some r.newOptimizer }
      [s1, s2, s3, s4, { s4 with training_status := .completed }]
    else
      [s1, s2, { s2 with training_status := .failed }]
  else
    [s1, { s1 with training_status := .failed }]

/-- The state left behind by the run. -/
def finalTrainState (s : AppState) (r : RunOutcome) : AppState :=
  (trainTrace s r).getLastD s

/-- State before the failing second run: one successful run stored
model 0, optimizer 0, data tuple 0. -/
def s_before : AppState := ⟨some 0, some 0, some 0, ["AAPL"], .completed⟩

/-- A run whose data preparation succeeds (producing data tuple 1) and
whose epoch loop then fails. -/
def run_failing : RunOutcome := ⟨true, 1, false, 99, 99⟩

/-- Claim C9, counterexample: a training run that fails during the
epoch loop has already overwritten `global_data_tuple` (the prepared
window data that `predict_portfolio` reads), so a predict call after
the failure does not observe the state that existed before the failed
run started, although the model parameters themselves are unchanged. -/
theorem c9_counterexample :
    (finalTrainState s_before run_failing).training_status = .failed ∧
    (finalTrainState s_before run_failing).global_model =
      s_before.global_model ∧
    (finalTrainState s_before run_failing).global_data_tuple ≠
      s_before.global_data_tuple ∧
    predictPortfolio (finalTrainState s_before run_failing) ["AAPL"] ≠
      predictPortfolio s_before ["AAPL"] := by
  refine ⟨rfl, rfl, by decide, ?_⟩
  have h1 : predictPortfolio (finalTrainState s_before run_failing) ["AAPL"] =
      .ok (0, 1, ["AAPL"]) := by rfl
  have h2 : predictPortfolio s_before ["AAPL"] = .ok (0, 0, ["AAPL"]) := by rfl
  rw [h1, h2]
  intro h
  simp at h

/-- Claim C9 (amended): whenever a training run fails — during data
preparation or during the epoch loop — the stored model and optimizer
are unchanged in every intermediate and final state (no partially
trained model ever becomes visible to inference) and the failure is
reported in the training status; however, when data preparation
succeeded before the failure, the shared `global_data_tuple` that
predict reads has already been replaced by the new data, so predict
calls after the failure do not observe exactly the pre-run state. -/
theorem c9_amended_state (s : AppState) (r : RunOutcome)
    (hfail : r.trainOk = false) :
    (∀ t ∈ trainTrace s r, t.global_model = s.global_model ∧
      t.global_optimizer = s.global_optimizer) ∧
    (finalTrainState s r).training_status = .failed ∧
    (r.dataPrepOk = true →
      (finalTrainState s r).global_data_tuple = some r.newData) ∧
    (r.dataPrepOk = false →
      (finalTrainState s r).global_data_tuple = s.global_data_tuple) := by
  unfold finalTrainState trainTrace
  rw [hfail]
  cases hd : r.dataPrepOk <;> simp [hd]

/-- Witness for the amended C9 theorem at the concrete failing run. -/
theorem c9_witness :
    (∀ t ∈ trainTrace s_before run_failing,
      t.global_model = s_before.global_model ∧
      t.global_optimizer = s_before.global_optimizer) ∧
    (finalTrainState s_before run_failing).training_status = .failed ∧
    (run_failing.dataPrepOk = true →
      (finalTrainState s_before run_failing).global_data_tuple =
        some run_failing.newData) ∧
    (run_failing.dataPrepOk = false →
      (finalTrainState s_before run_failing).global_data_tuple =
        s_before.global_data_tuple) :=
  c9_amended_state s_before run_failing rfl

/-! ### The training loop (PortfolioOptimizer.train, lines 781-861)

One epoch is abstracted as a deterministic parameter update
`update : M → M` (the gradient steps over the training loader) and a
validation loss `vloss : M → ℚ` (`evaluate(val_loader)`); the claims
concern only the early-stopping and checkpoint bookkeeping around
them.  `best_val_loss = float('inf')` becomes `none`. -/

/-- Epoch-loop bookkeeping state: current parameters, best validation
loss so far, patience counter, saved best checkpoint
(`best_portfolio_model.pth`), and number of completed epochs. -/
structure TrainState (M : Type) where
  model : M
  bestVal : Option ℚ
  patienceCounter : ℕ
  checkpoint : Option M
  epochsRun : ℕ

/-- The improvement test `val_loss < best_val_loss` with the initial
infinity. -/
def improves (v : ℚ) : Option ℚ → Bool
  | none => true
  | some b => decide (v < b)

/-- The epoch loop (lines 800-855): run an epoch, evaluate, then on
improvement save the checkpoint and reset the counter, otherwise
increment the counter and break once it reaches the patience
threshold. -/
def trainEpochs {M : Type} (update : M → M) (vloss : M → ℚ) (patience : ℕ) :
    ℕ → TrainState M → TrainState M
  | 0, st => st
  | e + 1, st =>
    if improves (vloss (update st.model)) st.bestVal then
      trainEpochs update vloss patience e
        ⟨update st.model, some (vloss (update st.model)), 0,
          some (update st.model), st.epochsRun + 1⟩
    else if patience ≤ st.patienceCounter + 1 then
      ⟨update st.model, st.bestVal, st.patienceCounter + 1, st.checkpoint,
        st.epochsRun + 1⟩
    else
      trainEpochs update vloss patience e
        ⟨update st.model, st.bestVal, st.patienceCounter + 1, st.checkpoint,
          st.epochsRun + 1⟩

/-- Initial bookkeeping state (lines 795-798). -/
def initTrainState {M : Type} (init : M) : TrainState M :=
  ⟨init, none, 0, none, 0⟩

/-- A full training run over at most `epochs` epochs. -/
def trainRun {M : Type} (update : M → M) (vloss : M → ℚ)
    (patience epochs : ℕ) (init : M) : TrainState M :=
  trainEpochs update vloss patience epochs (initTrainState init)

/-- The model state after the final checkpoint reload (line 859):
`none` models the crash of `torch.load` when no checkpoint was ever
written (only possible with zero epochs). -/
def trainedModel {M : Type} (update : M → M) (vloss : M → ℚ)
    (patience epochs : ℕ) (init : M) : Option M :=
  (trainRun update vloss patience epochs init).checkpoint

/-- Loop invariant: the current model is the `epochsRun`-th iterate,
and the checkpoint (when one exists) is an earlier epoch's model whose
validation loss is the best seen so far. -/
def epochInv {M : Type} (update : M → M) (vloss : M → ℚ) (init : M)
    (st : TrainState M) : Prop :=
  st.model = update^[st.epochsRun] init ∧
  ((st.checkpoint = none ∧ st.bestVal = none ∧ st.epochsRun = 0) ∨
   (∃ c b, st.checkpoint = some c ∧ st.bestVal = some b ∧ b = vloss c ∧
     (∃ e, 1 ≤ e ∧ e ≤ st.epochsRun ∧ c = update^[e] init) ∧
     ∀ e, 1 ≤ e → e ≤ st.epochsRun → b ≤ vloss (update^[e] init)))

lemma epochInv_init {M : Type} (update : M → M) (vloss : M → ℚ) (init : M) :
    epochInv update vloss init (initTrainState init) :=
  ⟨rfl, Or.inl ⟨rfl, rfl, rfl⟩⟩

lemma trainEpochs_inv {M : Type} (update : M → M) (vloss : M → ℚ)
    (patience : ℕ) (init : M) :
    ∀ (f : ℕ) (st : TrainState M), epochInv update vloss init st →
      epochInv update vloss init (trainEpochs update vloss patience f st) := by
  intro f
  induction f with
  | zero => exact fun st h => h
  | succ f ih =>
    intro st h
    obtain ⟨hmodel, hdisj⟩ := h
    simp only [trainEpochs]
    by_cases himp : improves (vloss (update st.model)) st.bestVal = true
    · rw [if_pos himp]
      apply ih
      refine ⟨?_, Or.inr ⟨update st.model, vloss (update st.model), rfl, rfl,
        rfl, ⟨st.epochsRun + 1, by omega, le_refl _, ?_⟩, ?_⟩⟩
      · show update st.model = update^[st.epochsRun + 1] init
        rw [hmodel]
        exact (Function.iterate_succ_apply' update st.epochsRun init).symm
      · rw [hmodel]
        exact (Function.iterate_succ_apply' update st.epochsRun init).symm
      · intro e he1 he2
        have he2n : e ≤ st.epochsRun + 1 := he2
        rcases Nat.lt_or_ge e (st.epochsRun + 1) with hlt | hge
        · have he2' : e ≤ st.epochsRun := by omega
          rcases hdisj with ⟨-, hbn, hrun⟩ | ⟨c, b, hc, hb, hbc, -, hall⟩
          · omega
          · have hvb : vloss (update st.model) < b := by
              unfold improves at himp
              rw [hb] at himp
              exact of_decide_eq_true himp
            have hbe := hall e he1 he2'
            linarith
        · have heq : e = st.epochsRun + 1 := by omega
          rw [heq, hmodel, Function.iterate_succ_apply']
    · rw [if_neg himp]
      rcases hdisj with ⟨hcn, hbn, hrun⟩ | ⟨c, b, hc, hb, hbc, hex, hall⟩
      · exfalso
        apply himp
        unfold improves
        rw [hbn]
      · obtain ⟨e0, he01, he02, he03⟩ := hex
        have hble : b ≤ vloss (update st.model) := by
          apply not_lt.mp
          intro hlt
          apply himp
          unfold improves
          rw [hb]
          exact decide_eq_true hlt
        have hnew : epochInv update vloss init
            ⟨update st.model, st.bestVal, st.patienceCounter + 1,
              st.checkpoint, st.epochsRun + 1⟩ := by
          refine ⟨?_, Or.inr ⟨c, b, hc, hb, hbc,
            ⟨e0, he01, (show e0 ≤ st.epochsRun + 1 by omega), he03⟩, ?_⟩⟩
          · show update st.model = update^[st.epochsRun + 1] init
            rw [hmodel]
            exact (Function.iterate_succ_apply' update st.epochsRun init).symm
          · intro e he1 he2
            have he2n : e ≤ st.epochsRun + 1 := he2
            rcases Nat.lt_or_ge e (st.epochsRun + 1) with hlt | hge
            · exact hall e he1 (by omega)
            · have heq : e = st.epochsRun + 1 := by omega
              rw [heq, Function.iterate_succ_apply', ← hmodel]
              exact hble
        by_cases hstop : patience ≤ st.patienceCounter + 1
        · rw [if_pos hstop]
          exact hnew
        · rw [if_neg hstop]
          exact ih _ hnew

lemma trainEpochs_run_mono {M : Type} (update : M → M) (vloss : M → ℚ)
    (patience : ℕ) :
    ∀ (f : ℕ) (st : TrainState M),
      st.epochsRun ≤ (trainEpochs update vloss patience f st).epochsRun := by
  intro f
  induction f with
  | zero => exact fun st => le_refl _
  | succ f ih =>
    intro st
    simp only [trainEpochs]
    by_cases himp : improves (vloss (update st.model)) st.bestVal = true
    · rw [if_pos himp]
      calc st.epochsRun ≤ st.epochsRun + 1 := by omega
        _ ≤ _ := ih ⟨update st.model, some (vloss (update st.model)), 0,
            some (update st.model), st.epochsRun + 1⟩
    · by_cases hstop : patience ≤ st.patienceCounter + 1
      · rw [if_neg himp, if_pos hstop]
        show st.epochsRun ≤ st.epochsRun + 1
        omega
      · rw [if_neg himp, if_neg hstop]
        calc st.epochsRun ≤ st.epochsRun + 1 := by omega
          _ ≤ _ := ih ⟨update st.model, st.bestVal, st.patienceCounter + 1,
              st.checkpoint, st.epochsRun + 1⟩

lemma trainEpochs_run_ge {M : Type} (update : M → M) (vloss : M → ℚ)
    (patience : ℕ) (f : ℕ) (st : TrainState M) (hf : 1 ≤ f) :
    st.epochsRun + 1 ≤ (trainEpochs update vloss patience f st).epochsRun := by
  obtain ⟨f, rfl⟩ : ∃ g, f = g + 1 := ⟨f - 1, by omega⟩
  simp only [trainEpochs]
  by_cases himp : improves (vloss (update st.model)) st.bestVal = true
  · rw [if_pos himp]
    exact trainEpochs_run_mono update vloss patience f
      ⟨update st.model, some (vloss (update st.model)), 0,
        some (update st.model), st.epochsRun + 1⟩
  · by_cases hstop : patience ≤ st.patienceCounter + 1
    · rw [if_neg himp, if_pos hstop]
    · rw [if_neg himp, if_neg hstop]
      exact trainEpochs_run_mono update vloss patience f
        ⟨update st.model, st.bestVal, st.patienceCounter + 1,
          st.checkpoint, st.epochsRun + 1⟩

lemma trainEpochs_stall {M : Type} (update : M → M) (vloss : M → ℚ)
    (patience : ℕ) (init : M)
    (hnever : ∀ e, 2 ≤ e →
      vloss (update^[1] init) ≤ vloss (update^[e] init)) :
    ∀ (f j : ℕ), j < patience → patience - j ≤ f →
      trainEpochs update vloss patience f
        ⟨update^[1 + j] init, some (vloss (update^[1] init)), j,
          some (update^[1] init), 1 + j⟩ =
        ⟨update^[1 + patience] init, some (vloss (update^[1] init)),
          patience, some (update^[1] init), 1 + patience⟩ := by
  intro f
  induction f with
  | zero =>
    intro j hj hf
    omega
  | succ f ih =>
    intro j hj hf
    simp only [trainEpochs]
    have hiter : update (update^[1 + j] init) = update^[1 + (j + 1)] init :=
      (Function.iterate_succ_apply' update (1 + j) init).symm
    have hnoimp : improves (vloss (update (update^[1 + j] init)))
        (some (vloss (update^[1] init))) = false := by
      unfold improves
      rw [decide_eq_false_iff_not, not_lt, hiter]
      exact hnever (1 + (j + 1)) (by omega)
    rw [hnoimp]
    rw [if_neg (by simp)]
    by_cases hstop : patience ≤ j + 1
    · rw [if_pos hstop]
      have hpj : patience = j + 1 := by omega
      rw [hiter, hpj]
      have hadd : 1 + j + 1 = 1 + (j + 1) := by omega
      rw [hadd]
    · rw [if_neg hstop]
      have := ih (j + 1) (by omega) (by omega)
      rw [hiter]
      exact this

/-- Claim C5: in every training run with a validation set, the
returned model state is the best checkpoint — its validation loss is
at most that of every epoch that ran — and in a run whose validation
loss never improves on the first epoch, training stops exactly
`patience` epochs after epoch 1 and the returned model is the epoch-1
checkpoint. -/
theorem c5_early_stopping {M : Type} (update : M → M) (vloss : M → ℚ)
    (patience epochs : ℕ) (init : M)
    (hp : 1 ≤ patience) (he : 1 + patience ≤ epochs) :
    (∃ c, (trainRun update vloss patience epochs init).checkpoint = some c ∧
      trainedModel update vloss patience epochs init = some c ∧
      ∀ e, 1 ≤ e →
        e ≤ (trainRun update vloss patience epochs init).epochsRun →
        vloss c ≤ vloss (update^[e] init)) ∧
    ((∀ e, 2 ≤ e →
        vloss (update^[1] init) ≤ vloss (update^[e] init)) →
      (trainRun update vloss patience epochs init).epochsRun = 1 + patience ∧
      trainedModel update vloss patience epochs init =
        some (update^[1] init)) := by
  constructor
  · have hinv := trainEpochs_inv update vloss patience init epochs
      (initTrainState init) (epochInv_init update vloss init)
    have hge := trainEpochs_run_ge update vloss patience epochs
      (initTrainState init) (by omega)
    obtain ⟨-, hdisj⟩ := hinv
    rcases hdisj with ⟨-, -, hrun0⟩ | ⟨c, b, hc, -, hbc, -, hall⟩
    · exfalso
      have : (0 : ℕ) + 1 ≤ (trainRun update vloss patience epochs init).epochsRun :=
        hge
      rw [trainRun] at this
      omega
    · refine ⟨c, hc, hc, fun e he1 he2 => ?_⟩
      have := hall e he1 he2
      rw [hbc] at this
      exact this
  · intro hnever
    obtain ⟨e1, rfl⟩ : ∃ g, epochs = g + 1 := ⟨epochs - 1, by omega⟩
    unfold trainRun trainedModel trainRun initTrainState
    simp only [trainEpochs]
    rw [if_pos (by unfold improves; rfl)]
    have hone : update init = update^[1 + 0] init := rfl
    have hst := trainEpochs_stall update vloss patience init hnever e1 0
      (by omega) (by omega)
    rw [show (0 : ℕ) + 1 = 1 + 0 by omega]
    rw [show update init = update^[1 + 0] init from rfl]
    rw [hst]
    exact ⟨rfl, rfl⟩

/-- Witness for C5: identity update, constant validation loss,
patience 2, budget 5 epochs. -/
theorem c5_witness :
    (∃ c, (trainRun (id : ℕ → ℕ) (fun _ => (1 : ℚ)) 2 5 0).checkpoint =
        some c ∧
      trainedModel (id : ℕ → ℕ) (fun _ => (1 : ℚ)) 2 5 0 = some c ∧
      ∀ e, 1 ≤ e →
        e ≤ (trainRun (id : ℕ → ℕ) (fun _ => (1 : ℚ)) 2 5 0).epochsRun →
        (fun _ => (1 : ℚ)) c ≤ (fun _ => (1 : ℚ)) (id^[e] 0)) ∧
    ((∀ e, 2 ≤ e →
        (fun _ => (1 : ℚ)) (id^[1] 0) ≤ (fun _ => (1 : ℚ)) (id^[e] 0)) →
      (trainRun (id : ℕ → ℕ) (fun _ => (1 : ℚ)) 2 5 0).epochsRun = 1 + 2 ∧
      trainedModel (id : ℕ → ℕ) (fun _ => (1 : ℚ)) 2 5 0 =
        some (id^[1] 0)) :=
  c5_early_stopping id (fun _ => 1) 2 5 0 (by norm_num) (by norm_num)

end FinHub
